import Mathlib

/-!
Shallow embedding of the MCP-Host repository core (files `mcp_client.py`
and `mcp_host.py`): JSON values as handled by Python's `json` module,
Python truthiness, the stdio request/response correlation loop, the HTTP
client constructor's configuration resolution, the `<tool>` directive
detector, and the host's server registry state machine.
-/

namespace MCPHost

/-- JSON values as produced by Python's `json.loads`: JSON `null` maps to
Python `None`, numbers are kept exactly as rationals, objects are
insertion-ordered association lists with string keys (Python `dict`). -/
inductive JVal where
  | jnull
  | jbool (b : Bool)
  | jnum (q : Rat)
  | jstr (s : String)
  | jarr (elems : List JVal)
  | jobj (fields : List (String × JVal))

mutual

/-- Python `==` on JSON-decoded values, used by the source wherever two
decoded values are compared (in the host these are request-id strings and
tool-name strings, so structural comparison is exact there). -/
def JVal.beq : JVal → JVal → Bool
  | .jnull, .jnull => true
  | .jbool a, .jbool b => a == b
  | .jnum a, .jnum b => a == b
  | .jstr a, .jstr b => a == b
  | .jarr xs, .jarr ys => JVal.beqList xs ys
  | .jobj xs, .jobj ys => JVal.beqFields xs ys
  | _, _ => false

/-- Elementwise `==` on decoded JSON arrays (Python list equality). -/
def JVal.beqList : List JVal → List JVal → Bool
  | [], [] => true
  | x :: xs, y :: ys => JVal.beq x y && JVal.beqList xs ys
  | _, _ => false

/-- Entrywise `==` on decoded JSON objects (Python dict equality, with the
insertion order fixed as the source never compares reordered dicts). -/
def JVal.beqFields : List (String × JVal) → List (String × JVal) → Bool
  | [], [] => true
  | (k, x) :: xs, (l, y) :: ys => k == l && JVal.beq x y && JVal.beqFields xs ys
  | _, _ => false

end

namespace JVal

/-- Python truthiness (`bool(x)`) on JSON-decoded values: `None`, `False`,
`0`, `""`, `[]` and `{}` are falsy, everything else truthy. -/
def truthy : JVal → Bool
  | .jnull => false
  | .jbool b => b
  | .jnum q => q != 0
  | .jstr s => s != ""
  | .jarr l => !l.isEmpty
  | .jobj fs => !fs.isEmpty

/-- Is this value a Python `dict` (`isinstance(x, dict)`)? -/
def isObj : JVal → Bool
  | .jobj _ => true
  | _ => false

end JVal

/-- First-occurrence association-list lookup; models `d.get(k)` on a
Python dict (whose keys are unique, so first occurrence is the only one). -/
def alookup {α β : Type} [DecidableEq α] : List (α × β) → α → Option β
  | [], _ => none
  | (k, v) :: rest, key => if k = key then some v else alookup rest key

/-- Python `d[k] = v` on a dict: replace the value in place when the key
exists (keeping its position), append a new binding otherwise. -/
def aset {α β : Type} [DecidableEq α] : List (α × β) → α → β → List (α × β)
  | [], key, v => [(key, v)]
  | (k, w) :: rest, key, v =>
    if k = key then (key, v) :: rest else (k, w) :: aset rest key v

/-- Python `del d[k]` on a dict: remove the (unique) binding for `k`. -/
def aremove {α β : Type} [DecidableEq α] : List (α × β) → α → List (α × β)
  | [], _ => []
  | (k, v) :: rest, key => if k = key then rest else (k, v) :: aremove rest key

/-- The keys of a dict are pairwise distinct (Python dict invariant). -/
def keysNodup {α β : Type} (m : List (α × β)) : Prop := (m.map Prod.fst).Nodup

/-- `fields.get(k)` with Python's `None` default, as a `JVal`
(absent key and JSON `null` both come back as Python `None`). -/
def jget (fields : List (String × JVal)) (k : String) : JVal :=
  (alookup fields k).getD JVal.jnull

/-- Python `x or y` on JSON-decoded values. -/
def pyOr (x y : JVal) : JVal := if x.truthy then x else y

theorem alookup_aset {α β : Type} [DecidableEq α]
    (m : List (α × β)) (k : α) (v : β) (k' : α) :
    alookup (aset m k v) k' = if k = k' then some v else alookup m k' := by
  induction m with
  | nil => simp [aset, alookup]
  | cons hd tl ih =>
    obtain ⟨a, b⟩ := hd
    simp only [aset]
    split
    · -- a = k: binding replaced in place
      rename_i hak
      subst hak
      simp only [alookup]
      by_cases h : a = k'
      · rw [if_pos h, if_pos h]
      · rw [if_neg h, if_neg h, if_neg h]
    · -- a ≠ k: recurse past this binding
      rename_i hak
      simp only [alookup, ih]
      by_cases h : a = k'
      · subst h
        rw [if_pos rfl, if_neg (fun hk => hak hk.symm), if_pos rfl]
      · rw [if_neg h, if_neg h]

theorem alookup_aremove_ne {α β : Type} [DecidableEq α]
    (m : List (α × β)) (k k' : α) (h : k ≠ k') :
    alookup (aremove m k) k' = alookup m k' := by
  induction m with
  | nil => simp [aremove, alookup]
  | cons hd tl ih =>
    obtain ⟨a, b⟩ := hd
    simp only [aremove]
    split
    · rename_i hak
      subst hak
      simp only [alookup]
      rw [if_neg h]
    · simp only [alookup, ih]

theorem alookup_eq_none_of_not_mem_keys {α β : Type} [DecidableEq α]
    (m : List (α × β)) (k : α) (h : k ∉ m.map Prod.fst) :
    alookup m k = none := by
  induction m with
  | nil => simp [alookup]
  | cons hd tl ih =>
    obtain ⟨a, b⟩ := hd
    simp only [List.map_cons, List.mem_cons, not_or] at h
    simp only [alookup]
    rw [if_neg (fun hk => h.1 (hk.symm))]
    exact ih h.2

theorem alookup_aremove_self {α β : Type} [DecidableEq α]
    (m : List (α × β)) (k : α) (h : keysNodup m) :
    alookup (aremove m k) k = none := by
  induction m with
  | nil => simp [aremove, alookup]
  | cons hd tl ih =>
    obtain ⟨a, b⟩ := hd
    simp only [keysNodup, List.map_cons, List.nodup_cons] at h
    simp only [aremove]
    split
    · rename_i hak
      subst hak
      exact alookup_eq_none_of_not_mem_keys tl a h.1
    · rename_i hak
      simp only [alookup]
      rw [if_neg hak]
      exact ih h.2

theorem mem_keys_aset {α β : Type} [DecidableEq α]
    (m : List (α × β)) (k : α) (v : β) (x : α)
    (hx : x ∈ (aset m k v).map Prod.fst) : x = k ∨ x ∈ m.map Prod.fst := by
  induction m with
  | nil => simpa [aset] using hx
  | cons hd tl ih =>
    obtain ⟨c, d⟩ := hd
    simp only [aset] at hx
    by_cases hck : c = k
    · rw [if_pos hck] at hx
      simp only [List.map_cons, List.mem_cons] at hx ⊢
      tauto
    · rw [if_neg hck] at hx
      simp only [List.map_cons, List.mem_cons] at hx ⊢
      rcases hx with hx | hx
      · tauto
      · rcases ih hx with hx | hx <;> tauto

theorem keysNodup_aset {α β : Type} [DecidableEq α]
    (m : List (α × β)) (k : α) (v : β) (h : keysNodup m) :
    keysNodup (aset m k v) := by
  induction m with
  | nil => simp [aset, keysNodup]
  | cons hd tl ih =>
    obtain ⟨a, b⟩ := hd
    simp only [keysNodup, List.map_cons, List.nodup_cons] at h
    simp only [aset]
    split
    · rename_i hak
      subst hak
      simp only [keysNodup, List.map_cons, List.nodup_cons]
      exact h
    · rename_i hak
      have htl := ih h.2
      simp only [keysNodup, List.map_cons, List.nodup_cons]
      refine ⟨?_, htl⟩
      intro hmem
      rcases mem_keys_aset tl k v a hmem with hx | hx
      · exact hak hx
      · exact h.1 hx

/-! ## Stdio transport: `MCPStdioClient._request` / `call_tool`

`_request` sends the serialized object, then loops: dequeue a line from the
pending-message queue (a timeout raises and the loop returns `None`); lines
`json.loads` rejects are skipped; a decoded message that is a dict whose
`"id"` equals the request's id is returned.  We model the sequence of
dequeue outcomes the loop observes as a list of `QEvent`s; a list that ends
without a match stands for a queue whose next dequeue times out. -/

/-- One dequeue outcome observed by `MCPStdioClient._request`'s loop. -/
inductive QEvent where
  | timeout
  | badLine (s : String)
  | msg (v : JVal)

/-- `x.get(k)` on a decoded value known to be a dict (`None` for non-dicts,
which the source never reaches at the call sites modelled here). -/
def jgetV (v : JVal) (k : String) : JVal :=
  match v with
  | .jobj fs => jget fs k
  | _ => JVal.jnull

/-- The receive loop of `MCPStdioClient._request` (mcp_client.py:381-391):
skip undecodable lines and messages that are not dicts carrying the
awaited id; return the first match; return `None` on a dequeue timeout. -/
def request_recv (rid : JVal) : List QEvent → Option JVal
  | [] => none
  | .timeout :: _ => none
  | .badLine _ :: rest => request_recv rid rest
  | .msg v :: rest =>
    match v with
    | .jobj fs => if JVal.beq (jget fs "id") rid then some (JVal.jobj fs)
                  else request_recv rid rest
    | _ => request_recv rid rest

/-- A dequeue outcome the `_request` loop silently discards: an
undecodable line, a non-dict message, or a dict with a different id. -/
def skippable (rid : JVal) : QEvent → Bool
  | .timeout => false
  | .badLine _ => true
  | .msg v =>
    match v with
    | .jobj fs => !JVal.beq (jget fs "id") rid
    | _ => true

/-- `MCPStdioClient.call_tool` (mcp_client.py:426-438) after the matched
response is obtained: `if not resp: None`; `r = resp.get("result") or {}`;
`d = r.get("data") if isinstance(r, dict) else None`; `return d or r or None`. -/
def stdio_call_tool_recv (rid : JVal) (evs : List QEvent) : Option JVal :=
  match request_recv rid evs with
  | none => none
  | some resp =>
    if !resp.truthy then none
    else
      let r := pyOr (jgetV resp "result") (JVal.jobj [])
      let d := if r.isObj then jgetV r "data" else JVal.jnull
      if d.truthy then some d else if r.truthy then some r else none

/-- C1: the `_request` receive loop returns the first dequeued line that
decodes to a dict whose `"id"` equals the request id, discards (never
requeues) every earlier undecodable or non-matching dequeued line, and
returns `None` as soon as one dequeue times out. -/
theorem stdio_request_correlation (rid : JVal) (pre : List QEvent)
    (hpre : ∀ e ∈ pre, skippable rid e = true) :
    (∀ rest, request_recv rid (pre ++ rest) = request_recv rid rest) ∧
    (∀ fs rest, JVal.beq (jget fs "id") rid = true →
      request_recv rid (pre ++ QEvent.msg (JVal.jobj fs) :: rest) =
        some (JVal.jobj fs)) ∧
    (∀ rest, request_recv rid (pre ++ QEvent.timeout :: rest) = none) := by
  have hskip : ∀ rest, request_recv rid (pre ++ rest) = request_recv rid rest := by
    intro rest
    induction pre with
    | nil => rfl
    | cons e pre' ih =>
      have he : skippable rid e = true := hpre e (by simp)
      have hpre' : ∀ e' ∈ pre', skippable rid e' = true := by
        intro e' he'
        exact hpre e' (by simp [he'])
      have ih' := ih hpre'
      cases e with
      | timeout => simp [skippable] at he
      | badLine s => simpa [request_recv] using ih'
      | msg v =>
        cases v with
        | jobj fs =>
          simp only [skippable, Bool.not_eq_true'] at he
          simpa [request_recv, he] using ih'
        | jnull => simpa [request_recv] using ih'
        | jbool b => simpa [request_recv] using ih'
        | jnum q => simpa [request_recv] using ih'
        | jstr s => simpa [request_recv] using ih'
        | jarr l => simpa [request_recv] using ih'
  refine ⟨hskip, ?_, ?_⟩
  · intro fs rest hmatch
    rw [hskip]
    simp [request_recv, hmatch]
  · intro rest
    rw [hskip]
    rfl

/-- Witness for `stdio_request_correlation`: a bad line and a response with
a foreign id are skipped, the awaited response is returned. -/
theorem stdio_request_correlation_witness :
    request_recv (JVal.jstr "r1")
      ([QEvent.badLine "not json",
        QEvent.msg (JVal.jobj [("id", JVal.jstr "r2")]),
        QEvent.msg (JVal.jarr [])] ++
       QEvent.msg (JVal.jobj [("id", JVal.jstr "r1"), ("result", JVal.jobj [])]) ::
       []) =
      some (JVal.jobj [("id", JVal.jstr "r1"), ("result", JVal.jobj [])]) :=
  (stdio_request_correlation (JVal.jstr "r1")
      [QEvent.badLine "not json",
       QEvent.msg (JVal.jobj [("id", JVal.jstr "r2")]),
       QEvent.msg (JVal.jarr [])]
      (by decide)).2.1
    [("id", JVal.jstr "r1"), ("result", JVal.jobj [])] [] (by decide)

/-- C9: a stdio `tools/call` whose matched response has a falsy `"result"`
(in particular the empty object `{}`, whose `"data"` is then also falsy)
makes `call_tool` return `None`, the same value a timed-out call returns,
so the two are indistinguishable to the caller. -/
theorem stdio_call_tool_empty_vs_timeout (rid : JVal) (evs : List QEvent) :
    (∀ resp, request_recv rid evs = some resp →
      jgetV resp "result" = JVal.jobj [] →
      stdio_call_tool_recv rid evs = none) ∧
    (∀ resp, request_recv rid evs = some resp →
      (jgetV resp "result").truthy = false →
      (jgetV (pyOr (jgetV resp "result") (JVal.jobj [])) "data").truthy = false →
      stdio_call_tool_recv rid evs = none) ∧
    (request_recv rid evs = none → stdio_call_tool_recv rid evs = none) := by
  refine ⟨?_, ?_, ?_⟩
  · intro resp hresp hres
    simp only [stdio_call_tool_recv, hresp, hres]
    by_cases ht : resp.truthy
    · simp [ht, pyOr, JVal.truthy, JVal.isObj, jgetV, jget, alookup]
    · simp [Bool.not_eq_true] at ht
      simp [ht]
  · intro resp hresp hres hdata
    have hr2 : pyOr (jgetV resp "result") (JVal.jobj []) = JVal.jobj [] := by
      simp [pyOr, hres]
    simp only [stdio_call_tool_recv, hresp, hr2]
    by_cases ht : resp.truthy
    · simp [ht, JVal.isObj, jgetV, jget, alookup, JVal.truthy]
    · simp [Bool.not_eq_true] at ht
      simp [ht]
  · intro hresp
    simp [stdio_call_tool_recv, hresp]

/-- Witness for `stdio_call_tool_empty_vs_timeout`: a successful call whose
response is `{"id": "r1", "result": {}}` yields `None`, and so does a call
whose first dequeue times out. -/
theorem stdio_call_tool_empty_vs_timeout_witness :
    stdio_call_tool_recv (JVal.jstr "r1")
      [QEvent.msg (JVal.jobj [("id", JVal.jstr "r1"), ("result", JVal.jobj [])])] =
      none ∧
    stdio_call_tool_recv (JVal.jstr "r1") [QEvent.timeout] = none :=
  ⟨(stdio_call_tool_empty_vs_timeout (JVal.jstr "r1")
      [QEvent.msg (JVal.jobj [("id", JVal.jstr "r1"), ("result", JVal.jobj [])])]).1
      (JVal.jobj [("id", JVal.jstr "r1"), ("result", JVal.jobj [])])
      rfl rfl,
   (stdio_call_tool_empty_vs_timeout (JVal.jstr "r1") [QEvent.timeout]).2.2 rfl⟩

/-! ## HTTP transport: `MCPClient.__init__` / `_resolve_server_config`

`_resolve_server_config` (mcp_client.py:76-104) reads the configuration
file and picks a server entry.  `cfg = none` stands for a missing,
unreadable or non-JSON file (all of which the source turns into the tuple
`(None, None)`).  When `mcpServers` is missing or empty the `if m:` block
is skipped and the function falls off its end returning a bare Python
`None`, which the caller then fails to unpack (`TypeError`); any exception
inside the `try` (attribute errors on non-dict values, `.strip()` on a
non-string url) yields `(None, None)`. -/

/-- Python's `\s` / `str.strip` whitespace (ASCII part, which is all the
host's configuration values use). -/
def pySpace (c : Char) : Bool :=
  c = ' ' || c = '\t' || c = '\n' || c = '\r' || c = '\x0b' || c = '\x0c'

/-- Case-sensitive literal match: consume `lit` from `cs`. -/
def matchLit : List Char → List Char → Option (List Char)
  | [], cs => some cs
  | _ :: _, [] => none
  | p :: ps, c :: cs => if c = p then matchLit ps cs else none

/-- Case-insensitive literal match (`re.IGNORECASE`), `lit` lowercase. -/
def matchLitCI : List Char → List Char → Option (List Char)
  | [], cs => some cs
  | _ :: _, [] => none
  | p :: ps, c :: cs => if c.toLower = p then matchLitCI ps cs else none

/-- Does `\s*</tool>` match at the front of `cs`? -/
def closeTagAhead (cs : List Char) : Bool :=
  (matchLitCI ("</tool>".data) (cs.dropWhile pySpace)).isSome

/-- Lazy `[\s\S]*?\x7d` before `\s*</tool>`: the shortest prefix of `cs`
followed by a closing brace that `\s*</tool>` follows.  Returns the body
(group interior between the braces). -/
def findBody (acc : List Char) : List Char → Option (List Char)
  | [] => none
  | c :: cs =>
    if c = '\x7d' && closeTagAhead cs then some acc.reverse
    else findBody (c :: acc) cs

/-- Try the full pattern at the current position; on success return the
captured group `\x7b...\x7d` (braces included, as in `m.group(1)`). -/
def tryTagAt (cs : List Char) : Option (List Char) :=
  match matchLitCI ("<tool>".data) cs with
  | none => none
  | some rest =>
    match rest.dropWhile pySpace with
    | '\x7b' :: body =>
      match findBody [] body with
      | some interior => some ('\x7b' :: (interior ++ ['\x7d']))
      | none => none
    | _ => none

/-- `re.search` for the tool-directive pattern: leftmost match wins. -/
def regexSearchTool : List Char → Option (List Char)
  | [] => none
  | c :: cs =>
    match tryTagAt (c :: cs) with
    | some g => some g
    | none => regexSearchTool cs

/-- JSON whitespace accepted between tokens by `json.loads`. -/
def jsWs (c : Char) : Bool := c = ' ' || c = '\t' || c = '\n' || c = '\r'

/-- Value of a hex digit in a `\u` escape. -/
def hexVal (c : Char) : Option Nat :=
  if '0' ≤ c ∧ c ≤ '9' then some (c.toNat - 48)
  else if 'a' ≤ c ∧ c ≤ 'f' then some (c.toNat - 87)
  else if 'A' ≤ c ∧ c ≤ 'F' then some (c.toNat - 55)
  else none

/-- JSON string body after the opening quote: ordinary characters and the
standard escapes. -/
def parseJStringAux : List Char → List Char → Option (String × List Char)
  | _, [] => none
  | acc, '"' :: rest => some (⟨acc.reverse⟩, rest)
  | acc, '\\' :: '"' :: rest => parseJStringAux ('"' :: acc) rest
  | acc, '\\' :: '\\' :: rest => parseJStringAux ('\\' :: acc) rest
  | acc, '\\' :: '/' :: rest => parseJStringAux ('/' :: acc) rest
  | acc, '\\' :: 'b' :: rest => parseJStringAux ('\x08' :: acc) rest
  | acc, '\\' :: 'f' :: rest => parseJStringAux ('\x0c' :: acc) rest
  | acc, '\\' :: 'n' :: rest => parseJStringAux ('\n' :: acc) rest
  | acc, '\\' :: 'r' :: rest => parseJStringAux ('\r' :: acc) rest
  | acc, '\\' :: 't' :: rest => parseJStringAux ('\t' :: acc) rest
  | acc, '\\' :: 'u' :: a :: b :: c :: d :: rest =>
    match hexVal a, hexVal b, hexVal c, hexVal d with
    | some ha, some hb, some hc, some hd =>
      parseJStringAux (Char.ofNat (((ha * 16 + hb) * 16 + hc) * 16 + hd) :: acc) rest
    | _, _, _, _ => none
  | _, '\\' :: _ => none
  | acc, c :: rest => parseJStringAux (c :: acc) rest

/-- Numeric value of a digit run. -/
def natOfDigits (ds : List Char) : Nat :=
  ds.foldl (fun n c => n * 10 + (c.toNat - 48)) 0

/-- Exponent tail of a JSON number (after `e`/`E`). -/
def parseExpTail (cs : List Char) : Option (Int × List Char) :=
  let (esign, cs1) : Int × List Char := match cs with
    | '+' :: rest => (1, rest)
    | '-' :: rest => (-1, rest)
    | _ => (1, cs)
  match cs1.span Char.isDigit with
  | ([], _) => none
  | (eds, cs2) => some (esign * (natOfDigits eds : Int), cs2)

/-- JSON number per the grammar `json.loads` accepts: `-?int frac? exp?`
with no leading zeros; the exact value as a rational. -/
def parseNumber (cs : List Char) : Option (Rat × List Char) :=
  let (neg, cs1) : Bool × List Char := match cs with
    | '-' :: rest => (true, rest)
    | _ => (false, cs)
  match cs1.span Char.isDigit with
  | ([], _) => none
  | (ids, cs2) =>
    if 2 ≤ ids.length ∧ ids.headD '0' = '0' then none
    else
      let contFrac : Option (List Char × List Char) := match cs2 with
        | '.' :: rest =>
          match rest.span Char.isDigit with
          | ([], _) => none
          | (fds, cs3) => some (fds, cs3)
        | _ => some ([], cs2)
      match contFrac with
      | none => none
      | some (fds, cs3) =>
        let contExp : Option (Int × List Char) := match cs3 with
          | 'e' :: rest => parseExpTail rest
          | 'E' :: rest => parseExpTail rest
          | _ => some (0, cs3)
        match contExp with
        | none => none
        | some (e, cs4) =>
          let mant : Rat :=
            (natOfDigits ids : Rat) + (natOfDigits fds : Rat) / ((10 : Rat) ^ fds.length)
          some ((if neg then -mant else mant) * (10 : Rat) ^ e, cs4)

mutual

/-- One JSON value (fuel-bounded recursion; the fuel only bounds nesting
depth and is chosen large enough at the entry point). -/
def parseValue : Nat → List Char → Option (JVal × List Char)
  | 0, _ => none
  | Nat.succ fuel, cs0 =>
    let cs := cs0.dropWhile jsWs
    match cs with
    | [] => none
    | '\x7b' :: rest =>
      match rest.dropWhile jsWs with
      | '\x7d' :: rest2 => some (.jobj [], rest2)
      | rest1 => parseMembers fuel rest1 []
    | '[' :: rest =>
      match rest.dropWhile jsWs with
      | ']' :: rest2 => some (.jarr [], rest2)
      | rest1 => parseElems fuel rest1 []
    | '"' :: rest =>
      match parseJStringAux [] rest with
      | some (s, rest2) => some (.jstr s, rest2)
      | none => none
    | 't' :: _ =>
      match matchLit ("true".data) cs with
      | some rest => some (.jbool true, rest)
      | none => none
    | 'f' :: _ =>
      match matchLit ("false".data) cs with
      | some rest => some (.jbool false, rest)
      | none => none
    | 'n' :: _ =>
      match matchLit ("null".data) cs with
      | some rest => some (.jnull, rest)
      | none => none
    | _ =>
      match parseNumber cs with
      | some (q, rest) => some (.jnum q, rest)
      | none => none

/-- Members of a JSON object after the opening brace (first member's
leading whitespace already consumed); duplicate keys follow Python's
dict semantics (last value wins). -/
def parseMembers : Nat → List Char → List (String × JVal) →
    Option (JVal × List Char)
  | 0, _, _ => none
  | Nat.succ fuel, cs, acc =>
    match cs.dropWhile jsWs with
    | '"' :: rest =>
      match parseJStringAux [] rest with
      | none => none
      | some (k, rest2) =>
        match rest2.dropWhile jsWs with
        | ':' :: rest3 =>
          match parseValue fuel rest3 with
          | none => none
          | some (v, rest4) =>
            match rest4.dropWhile jsWs with
            | ',' :: rest5 => parseMembers fuel rest5 (aset acc k v)
            | '\x7d' :: rest5 => some (.jobj (aset acc k v), rest5)
            | _ => none
        | _ => none
    | _ => none

/-- Elements of a JSON array after the opening bracket. -/
def parseElems : Nat → List Char → List JVal → Option (JVal × List Char)
  | 0, _, _ => none
  | Nat.succ fuel, cs, acc =>
    match parseValue fuel cs with
    | none => none
    | some (v, rest) =>
      match rest.dropWhile jsWs with
      | ',' :: rest2 => parseElems fuel rest2 (acc ++ [v])
      | ']' :: rest2 => some (.jarr (acc ++ [v]), rest2)
      | _ => none

end

/-- `json.loads` on a whole input: one value, then only whitespace. -/
def jsonParse (g : List Char) : Option JVal :=
  match parseValue (g.length + 1) g with
  | some (v, rest) => if (rest.dropWhile jsWs).isEmpty then some v else none
  | none => none

/-- `MCPHost.detect_tool` (mcp_host.py:292-302): regex search, then
`json.loads` on the captured group with `\x7b\x7d` as the fallback on a
parse failure, then `return bool(spec), spec`. -/
def detect_tool (text : String) : Bool × JVal :=
  match regexSearchTool text.data with
  | none => (false, JVal.jobj [])
  | some g =>
    let spec := match jsonParse g with
      | some v => v
      | none => JVal.jobj []
    (spec.truthy, spec)

/-- C3 counterexample: a tagged block whose braces do not parse as JSON
makes `detect_tool` return `found = false` (since `bool(\x7b\x7d)` is
`False`), not `found = true` as claimed. -/
theorem detect_tool_malformed_counterexample :
    detect_tool "<tool>\x7bbad\x7d</tool>" = (false, JVal.jobj []) := by
  rfl

/-- C3 (amended): a tagged block whose inner braces fail to parse as JSON
yields `found = false` paired with the empty specification (the parse
fallback `\x7b\x7d` is falsy under `bool`), and text with no tagged block
also yields `(false, \x7b\x7d)`. -/
theorem detect_tool_malformed (text : String) :
    (regexSearchTool text.data = none → detect_tool text = (false, JVal.jobj [])) ∧
    (∀ g, regexSearchTool text.data = some g → jsonParse g = none →
      detect_tool text = (false, JVal.jobj [])) := by
  constructor
  · intro h
    simp [detect_tool, h]
  · intro g hg hp
    simp [detect_tool, hg, hp, JVal.truthy]

/-- Witness for `detect_tool_malformed`: text with no tags, and a tagged
block containing non-JSON. -/
theorem detect_tool_malformed_witness :
    detect_tool "no tags here" = (false, JVal.jobj []) ∧
    detect_tool "<tool>\x7bbad\x7d</tool>" = (false, JVal.jobj []) :=
  ⟨(detect_tool_malformed "no tags here").1 rfl,
   (detect_tool_malformed "<tool>\x7bbad\x7d</tool>").2
     ("\x7bbad\x7d".data) rfl rfl⟩

/-! ## `MCPHost`: server registry state machine (mcp_host.py)

The host's mutable state is the `_servers` dict (name → per-server record),
the `_clients` dict (name → live client handle, modelled as an opaque
numeric handle drawn from a counter), and the counter.  A `World` packages
everything outside this state that the host consults: whether constructing
a client for a given server succeeds (`MCPClientError` otherwise — the
only exception the host catches), the tools list a live client's
`list_tools` reports (`none` models the call raising), and the parsed
contents of `config/tool_states.json`. -/

/-- Per-server record built by `MCPHost.load_config` (mcp_host.py:52-65). -/
structure SMeta where
  name : String
  url : JVal
  headers : JVal
  enabled : JVal
  typ : JVal
  note : JVal
  status : String

/-- The host's mutable state: `_servers`, `_clients`, and a counter
furnishing fresh client handles. -/
structure HostState where
  servers : List (String × SMeta)
  clients : List (String × Nat)
  nextClient : Nat

/-- Environment of a host run: client construction outcomes, remote tool
catalogs, and the persisted override document. -/
structure World where
  ctorOK : String → Bool
  catalog : String → Option (List JVal)
  statesRaw : Option JVal

/-- `MCPHost.enable_server` (mcp_host.py:105-126): unknown name → `False`;
otherwise set `enabled = True`, lazily construct a client when none is
live (`running` on success / `down` plus `False` on `MCPClientError`). -/
def enable_server (w : World) (st : HostState) (name : String) : HostState × Bool :=
  match alookup st.servers name with
  | none => (st, false)
  | some meta =>
    match alookup st.clients name with
    | some _ =>
      ({ st with servers := aset st.servers name { meta with enabled := JVal.jbool true } },
       true)
    | none =>
      if w.ctorOK name then
        let meta' := { meta with enabled := JVal.jbool true, status := "running" }
        ({ servers := aset st.servers name meta',
           clients := aset st.clients name st.nextClient,
           nextClient := st.nextClient + 1 }, true)
      else
        let meta' := { meta with enabled := JVal.jbool true, status := "down" }
        ({ st with servers := aset st.servers name meta' }, false)

/-- `MCPHost.disable_server` (mcp_host.py:128-145): unknown name →
`False`; otherwise set `enabled = False`, drop the client handle if one
exists, and set status `disabled`. -/
def disable_server (st : HostState) (name : String) : HostState × Bool :=
  match alookup st.servers name with
  | none => (st, false)
  | some meta =>
    let meta' := { meta with enabled := JVal.jbool false, status := "disabled" }
    ({ st with servers := aset st.servers name meta',
               clients := aremove st.clients name }, true)

/-- One line of `MCPHost.list_servers` output. -/
structure ServerInfo where
  name : String
  enabled : Bool
  status : String
deriving DecidableEq, Repr

/-- `MCPHost.list_servers` (mcp_host.py:147-162): only servers whose
`enabled` value is truthy, each reported with `enabled = True` and
`meta.get("status") or "unknown"`. -/
def list_servers (st : HostState) : List ServerInfo :=
  st.servers.filterMap fun p =>
    if p.2.enabled.truthy then
      some { name := p.1, enabled := true,
             status := if p.2.status = "" then "unknown" else p.2.status }
    else none

theorem alookup_of_mem_nodup {α β : Type} [DecidableEq α]
    (m : List (α × β)) (hnd : keysNodup m) (k : α) (v : β)
    (hmem : (k, v) ∈ m) : alookup m k = some v := by
  induction m with
  | nil => simp at hmem
  | cons hd tl ih =>
    obtain ⟨a, b⟩ := hd
    simp only [keysNodup, List.map_cons, List.nodup_cons] at hnd
    rcases List.mem_cons.mp hmem with heq | htl
    · rw [Prod.mk.injEq] at heq
      obtain ⟨rfl, rfl⟩ := heq
      simp [alookup]
    · have hk : a ≠ k := by
        intro h
        subst h
        exact hnd.1 (List.mem_map.mpr ⟨(a, v), htl, rfl⟩)
      simp only [alookup, if_neg hk]
      exact ih hnd.2 htl

theorem mem_of_alookup {α β : Type} [DecidableEq α]
    (m : List (α × β)) (k : α) (v : β) (h : alookup m k = some v) : (k, v) ∈ m := by
  induction m with
  | nil => simp [alookup] at h
  | cons hd tl ih =>
    obtain ⟨a, b⟩ := hd
    simp only [alookup] at h
    split at h
    · rename_i hak
      subst hak
      simp [Option.some.injEq] at h
      simp [h]
    · simp [ih h]

/-- C10: every entry `list_servers` returns names a configured server with
a truthy `enabled` value, carries `enabled = true` and the
`"unknown"`-defaulted status; servers with a falsy `enabled` value never
appear. -/
theorem list_servers_enabled_only (st : HostState) (hnd : keysNodup st.servers) :
    (∀ info ∈ list_servers st, ∃ meta, alookup st.servers info.name = some meta ∧
       meta.enabled.truthy = true ∧ info.enabled = true ∧
       info.status = (if meta.status = "" then "unknown" else meta.status)) ∧
    (∀ name meta, alookup st.servers name = some meta →
       meta.enabled.truthy = false → ∀ info ∈ list_servers st, info.name ≠ name) := by
  constructor
  · intro info hinfo
    simp only [list_servers, List.mem_filterMap] at hinfo
    obtain ⟨⟨k, m⟩, hmem, hbuild⟩ := hinfo
    by_cases htr : m.enabled.truthy
    · simp only [if_pos htr, Option.some.injEq] at hbuild
      refine ⟨m, ?_, htr, ?_, ?_⟩
      · rw [← hbuild]
        exact alookup_of_mem_nodup st.servers hnd k m hmem
      · rw [← hbuild]
      · rw [← hbuild]
    · simp [if_neg htr] at hbuild
  · intro name meta hmeta hfalsy info hinfo hname
    simp only [list_servers, List.mem_filterMap] at hinfo
    obtain ⟨⟨k, m⟩, hmem, hbuild⟩ := hinfo
    by_cases htr : m.enabled.truthy
    · simp only [if_pos htr, Option.some.injEq] at hbuild
      have hk : k = name := by rw [← hname, ← hbuild]
      subst hk
      have := alookup_of_mem_nodup st.servers hnd k m hmem
      rw [hmeta] at this
      obtain rfl : meta = m := by
        simpa using this
      rw [htr] at hfalsy
      exact absurd hfalsy (by decide)
    · simp [if_neg htr] at hbuild

/-- A sample per-server record for concrete instances. -/
def sampleMeta (name : String) (enabled : JVal) (status : String) : SMeta :=
  { name := name, url := JVal.jnull, headers := JVal.jobj [],
    enabled := enabled, typ := JVal.jnull, note := JVal.jnull, status := status }

/-- Witness for `list_servers_enabled_only`: a two-server host, one
enabled with an empty status (reported as `"unknown"`) and one disabled
(never reported). -/
theorem list_servers_enabled_only_witness :
    (∃ meta, alookup [("a", sampleMeta "a" (JVal.jbool true) ""),
                      ("b", sampleMeta "b" (JVal.jbool false) "unknown")] "a" = some meta ∧
       meta.enabled.truthy = true ∧ (true : Bool) = true ∧
       ("unknown" : String) = (if meta.status = "" then "unknown" else meta.status)) ∧
    ServerInfo.name ⟨"a", true, "unknown"⟩ ≠ "b" := by
  have h := list_servers_enabled_only
    { servers := [("a", sampleMeta "a" (JVal.jbool true) ""),
                  ("b", sampleMeta "b" (JVal.jbool false) "unknown")],
      clients := [], nextClient := 0 }
    (by simp [keysNodup])
  exact ⟨h.1 ⟨"a", true, "unknown"⟩ (by decide),
         h.2 "b" (sampleMeta "b" (JVal.jbool false) "unknown") rfl rfl
           ⟨"a", true, "unknown"⟩ (by decide)⟩

/-- C8: when no client is live and construction fails, `enable_server`
returns `False`, yet `enabled` has already been flipped to `True` and the
status set to `"down"`; no client is added.  The failed enable mutates the
registry (non-atomic failure). -/
theorem enable_server_failure_mutates (w : World) (st : HostState) (name : String)
    (meta : SMeta) (hmem : alookup st.servers name = some meta)
    (hnoclient : alookup st.clients name = none)
    (hctor : w.ctorOK name = false) :
    (enable_server w st name).2 = false ∧
    alookup (enable_server w st name).1.servers name =
      some { meta with enabled := JVal.jbool true, status := "down" } ∧
    (enable_server w st name).1.clients = st.clients := by
  have e1 : enable_server w st name =
      ({ st with servers := aset st.servers name { meta with enabled := JVal.jbool true, status := "down" } }, false) := by
    simp [enable_server, hmem, hnoclient, hctor]
  rw [e1]
  refine ⟨rfl, ?_, rfl⟩
  rw [alookup_aset]
  simp

/-- Witness for `enable_server_failure_mutates`: one configured server,
no client, a world whose construction always fails. -/
theorem enable_server_failure_mutates_witness :
    (enable_server ⟨fun _ => false, fun _ => none, none⟩
      { servers := [("a", sampleMeta "a" (JVal.jbool false) "unknown")],
        clients := [], nextClient := 0 } "a").2 = false ∧
    alookup (enable_server ⟨fun _ => false, fun _ => none, none⟩
      { servers := [("a", sampleMeta "a" (JVal.jbool false) "unknown")],
        clients := [], nextClient := 0 } "a").1.servers "a" =
      some { sampleMeta "a" (JVal.jbool false) "unknown" with
               enabled := JVal.jbool true, status := "down" } ∧
    (enable_server ⟨fun _ => false, fun _ => none, none⟩
      { servers := [("a", sampleMeta "a" (JVal.jbool false) "unknown")],
        clients := [], nextClient := 0 } "a").1.clients = [] :=
  enable_server_failure_mutates ⟨fun _ => false, fun _ => none, none⟩
    { servers := [("a", sampleMeta "a" (JVal.jbool false) "unknown")],
      clients := [], nextClient := 0 } "a"
    (sampleMeta "a" (JVal.jbool false) "unknown") rfl rfl rfl

/-- After a disable, an enable with succeeding construction restores a
live client and a `running` status (helper for the round-trip claim). -/
theorem disable_enable_restores (w : World) (st : HostState) (name : String)
    (meta : SMeta) (hmem : alookup st.servers name = some meta)
    (hnd : keysNodup st.clients) (hctor : w.ctorOK name = true) :
    (disable_server st name).2 = true ∧
    alookup (disable_server st name).1.clients name = none ∧
    alookup (disable_server st name).1.servers name =
      some { meta with enabled := JVal.jbool false, status := "disabled" } ∧
    (enable_server w (disable_server st name).1 name).2 = true ∧
    (alookup (enable_server w (disable_server st name).1 name).1.clients name).isSome
      = true ∧
    alookup (enable_server w (disable_server st name).1 name).1.servers name =
      some { meta with enabled := JVal.jbool true, status := "running" } := by
  have e2 : disable_server st name =
      (⟨aset st.servers name { meta with enabled := JVal.jbool false, status := "disabled" },
        aremove st.clients name, st.nextClient⟩, true) := by
    simp [disable_server, hmem]
  rw [e2]
  have hs2 : alookup (aset st.servers name
      { meta with enabled := JVal.jbool false, status := "disabled" }) name =
      some { meta with enabled := JVal.jbool false, status := "disabled" } := by
    rw [alookup_aset]; simp
  have hc2 : alookup (aremove st.clients name) name = none :=
    alookup_aremove_self _ _ hnd
  refine ⟨rfl, hc2, hs2, ?_⟩
  have e3 : enable_server w
      (⟨aset st.servers name { meta with enabled := JVal.jbool false, status := "disabled" },
        aremove st.clients name, st.nextClient⟩ : HostState) name =
      (⟨aset (aset st.servers name { meta with enabled := JVal.jbool false, status := "disabled" }) name { meta with enabled := JVal.jbool true, status := "running" },
        aset (aremove st.clients name) name st.nextClient,
        st.nextClient + 1⟩, true) := by
    simp [enable_server, hs2, hc2, hctor]
  rw [e3]
  refine ⟨rfl, ?_, ?_⟩
  · rw [alookup_aset]; simp
  · rw [alookup_aset]; simp

/-- C7: for a configured server whose client construction succeeds,
enable–disable–enable leaves a live client, `enabled = True` and status
`"running"` with no configuration reload involved; the middle disable
removed the client handle and set status `"disabled"`. -/
theorem enable_disable_enable_roundtrip (w : World) (st : HostState) (name : String)
    (meta : SMeta) (hmem : alookup st.servers name = some meta)
    (hnd : keysNodup st.clients) (hctor : w.ctorOK name = true) :
    (enable_server w st name).2 = true ∧
    (disable_server (enable_server w st name).1 name).2 = true ∧
    alookup (disable_server (enable_server w st name).1 name).1.clients name = none ∧
    (∃ m2, alookup (disable_server (enable_server w st name).1 name).1.servers name
        = some m2 ∧ m2.enabled = JVal.jbool false ∧ m2.status = "disabled") ∧
    (enable_server w (disable_server (enable_server w st name).1 name).1 name).2
      = true ∧
    (alookup (enable_server w
        (disable_server (enable_server w st name).1 name).1 name).1.clients
        name).isSome = true ∧
    (∃ m3, alookup (enable_server w
        (disable_server (enable_server w st name).1 name).1 name).1.servers name
        = some m3 ∧ m3.enabled = JVal.jbool true ∧ m3.status = "running") := by
  rcases hc : alookup st.clients name with _ | c
  · -- no live client yet: the first enable constructs one
    have e1 : enable_server w st name =
        ({ servers := aset st.servers name
             { meta with enabled := JVal.jbool true, status := "running" },
           clients := aset st.clients name st.nextClient,
           nextClient := st.nextClient + 1 }, true) := by
      simp [enable_server, hmem, hc, hctor]
    have h1s : alookup (aset st.servers name
        { meta with enabled := JVal.jbool true, status := "running" }) name =
        some { meta with enabled := JVal.jbool true, status := "running" } := by
      rw [alookup_aset]; simp
    have h1nd : keysNodup (aset st.clients name st.nextClient) :=
      keysNodup_aset _ _ _ hnd
    have h := disable_enable_restores w
      ({ servers := aset st.servers name
           { meta with enabled := JVal.jbool true, status := "running" },
         clients := aset st.clients name st.nextClient,
         nextClient := st.nextClient + 1 } : HostState) name _ h1s h1nd hctor
    rw [e1]
    exact ⟨rfl, h.1, h.2.1, ⟨_, h.2.2.1, rfl, rfl⟩, h.2.2.2.1, h.2.2.2.2.1,
      ⟨_, h.2.2.2.2.2, rfl, rfl⟩⟩
  · -- a client is already live: the first enable only flips the flag
    have e1 : enable_server w st name =
        ({ st with servers := aset st.servers name { meta with enabled := JVal.jbool true } }, true) := by
      simp [enable_server, hmem, hc]
    have h1s : alookup (aset st.servers name
        { meta with enabled := JVal.jbool true }) name =
        some { meta with enabled := JVal.jbool true } := by
      rw [alookup_aset]; simp
    have h := disable_enable_restores w
      ({ st with servers := aset st.servers name { meta with enabled := JVal.jbool true } } : HostState) name _ h1s hnd hctor
    rw [e1]
    exact ⟨rfl, h.1, h.2.1, ⟨_, h.2.2.1, rfl, rfl⟩, h.2.2.2.1, h.2.2.2.2.1,
      ⟨_, h.2.2.2.2.2, rfl, rfl⟩⟩

/-- Witness for `enable_disable_enable_roundtrip`: one configured server,
no initial client, construction succeeding. -/
theorem enable_disable_enable_roundtrip_witness :
    (enable_server ⟨fun _ => true, fun _ => none, none⟩
      { servers := [("a", sampleMeta "a" (JVal.jbool true) "unknown")],
        clients := [], nextClient := 0 } "a").2 = true ∧
    (alookup (enable_server ⟨fun _ => true, fun _ => none, none⟩
      (disable_server (enable_server ⟨fun _ => true, fun _ => none, none⟩
        { servers := [("a", sampleMeta "a" (JVal.jbool true) "unknown")],
          clients := [], nextClient := 0 } "a").1 "a").1 "a").1.clients "a").isSome
      = true := by
  have h := enable_disable_enable_roundtrip ⟨fun _ => true, fun _ => none, none⟩
    { servers := [("a", sampleMeta "a" (JVal.jbool true) "unknown")],
      clients := [], nextClient := 0 } "a"
    (sampleMeta "a" (JVal.jbool true) "unknown") rfl (by simp [keysNodup]) rfl
  exact ⟨h.1, h.2.2.2.2.2.1⟩

/-! ## Tool aggregation: `MCPHost.list_all_tools` (mcp_host.py:205-230)

`list_all_tools` iterates the enabled servers from `list_servers`, fetches
each server's tools through `list_tools` (which lazily enables the server,
mutating the client table), and overlays the persisted override document
from `load_states`.  Exceptions that can escape `list_all_tools` itself —
`sstate.get` on a truthy non-dict override entry, `t.get` on a non-dict
tool, an unhashable tool name used as a dict key — are modelled as `none`
results of the aggregation. -/

/-- `MCPHost.load_states` (mcp_host.py:184-203): the parsed override file;
a missing/unreadable file or a non-dict document degrades to `\x7b\x7d`. -/
def load_states (w : World) : JVal :=
  match w.statesRaw with
  | some v => if v.isObj then v else JVal.jobj []
  | none => JVal.jobj []

/-- `MCPHost.list_tools` (mcp_host.py:164-182) reduced to the tools list
its result carries: empty for unknown/disabled servers or when enabling
fails, otherwise the client's reported catalog (`info.get("tools") or []`,
with an exception during the call degraded to the empty list). -/
def host_list_tools (w : World) (st : HostState) (name : String) :
    HostState × List JVal :=
  match alookup st.servers name with
  | none => (st, [])
  | some meta =>
    if !meta.enabled.truthy then (st, [])
    else
      match alookup st.clients name with
      | some _ => (st, (w.catalog name).getD [])
      | none =>
        let r := enable_server w st name
        if r.2 then (r.1, (w.catalog name).getD []) else (r.1, [])

/-- Lines 215-216: `sstate = states.get(name) or \x7b\x7d`, then the tools
sub-dict guarded by `isinstance(..., dict)`.  A truthy non-dict `sstate`
makes `sstate.get("tools")` raise `AttributeError` (uncaught): `none`. -/
def tstateOf (states : JVal) (name : String) :
    Option (List (String × JVal)) :=
  match pyOr (jgetV states name) (JVal.jobj []) with
  | .jobj sfs =>
    some (match jget sfs "tools" with
      | .jobj tfs => tfs
      | _ => [])
  | _ => none

/-- Lines 221-228: drop the tool iff its name is a key of the per-server
tools dict and `bool(v.get("turn-on"))` is false for `v = tstate.get(n) or
\x7b\x7d`; a truthy non-dict `v` makes `v.get` raise inside the
`try/except: pass`, so the tool is kept. -/
def toolExcluded (tst : List (String × JVal)) (n : JVal) : Bool :=
  match n with
  | .jstr s =>
    match alookup tst s with
    | some v0 =>
      match pyOr v0 (JVal.jobj []) with
      | .jobj vfs => !(jget vfs "turn-on").truthy
      | _ => false
    | none => false
  | _ => false

/-- One registry value: owning server and the tool's schema dict. -/
structure RegEntry where
  server : String
  schema : JVal

/-- Registry lookup, keyed by the decoded tool-name value with Python
`==` (`reg[n]`). -/
def rlookupJ : List (JVal × RegEntry) → JVal → Option RegEntry
  | [], _ => none
  | (k, v) :: rest, key => if JVal.beq k key then some v else rlookupJ rest key

/-- Registry update `reg[n] = entry`: replace in place or append. -/
def rsetJ : List (JVal × RegEntry) → JVal → RegEntry → List (JVal × RegEntry)
  | [], key, v => [(key, v)]
  | (k, w) :: rest, key, v =>
    if JVal.beq k key then (key, v) :: rest else (k, w) :: rsetJ rest key v

/-- The inner loop of `list_all_tools` (lines 217-229) over one server's
tools: skip falsy names, apply the override filter, register the rest
(`none` = a non-dict tool made `t.get` raise, or an unhashable truthy name
made the `n in tstate` membership test raise `TypeError`). -/
def aggTools (sname : String) (tst : List (String × JVal)) :
    List JVal → List (JVal × RegEntry) → Option (List (JVal × RegEntry))
  | [], reg => some reg
  | t :: ts, reg =>
    match t with
    | .jobj tfs =>
      let n := jget tfs "name"
      if !n.truthy then aggTools sname tst ts reg
      else
        match n with
        | .jarr _ => none
        | .jobj _ => none
        | _ =>
          if toolExcluded tst n then aggTools sname tst ts reg
          else aggTools sname tst ts (rsetJ reg n { server := sname, schema := .jobj tfs })
    | _ => none

/-- The outer loop of `list_all_tools` over the enabled server names. -/
def aggServers (w : World) (states : JVal) :
    List String → HostState → List (JVal × RegEntry) →
    Option (HostState × List (JVal × RegEntry))
  | [], st, reg => some (st, reg)
  | name :: rest, st, reg =>
    if name = "" then aggServers w states rest st reg
    else
      let r := host_list_tools w st name
      match tstateOf states name with
      | none => none
      | some tst =>
        match aggTools name tst r.2 reg with
        | none => none
        | some reg1 => aggServers w states rest r.1 reg1

/-- `MCPHost.list_all_tools` (mcp_host.py:205-230). -/
def list_all_tools (w : World) (st : HostState) :
    Option (HostState × List (JVal × RegEntry)) :=
  aggServers w (load_states w) ((list_servers st).map fun i => i.name) st []

/-- C2 counterexample: server `"s"` exposes tool `"t"`, and the override
document holds an entry for `"t"` that is *not* explicitly marked
`turn-on = false` (it only carries a note) — yet the tool is excluded,
because mere presence without a truthy `turn-on` excludes. -/
theorem list_all_tools_override_counterexample :
    list_all_tools
      ⟨fun _ => false, fun _ => some [JVal.jobj [("name", JVal.jstr "t")]],
       some (JVal.jobj [("s", JVal.jobj [("tools", JVal.jobj
         [("t", JVal.jobj [("note", JVal.jstr "x")])])])])⟩
      { servers := [("s", sampleMeta "s" (JVal.jbool true) "unknown")],
        clients := [("s", 0)], nextClient := 1 } =
    some ({ servers := [("s", sampleMeta "s" (JVal.jbool true) "unknown")],
            clients := [("s", 0)], nextClient := 1 }, []) := by
  rfl

theorem mem_rsetJ (reg : List (JVal × RegEntry)) (k : JVal) (v : RegEntry)
    (p : JVal × RegEntry) (hp : p ∈ rsetJ reg k v) : p = (k, v) ∨ p ∈ reg := by
  induction reg with
  | nil => simpa [rsetJ] using hp
  | cons hd tl ih =>
    obtain ⟨a, b⟩ := hd
    simp only [rsetJ] at hp
    split at hp
    · rcases List.mem_cons.mp hp with h | h
      · exact Or.inl h
      · exact Or.inr (List.mem_cons_of_mem _ h)
    · rcases List.mem_cons.mp hp with h | h
      · exact Or.inr (h ▸ List.mem_cons_self _ _)
      · rcases ih h with h' | h'
        · exact Or.inl h'
        · exact Or.inr (List.mem_cons_of_mem _ h')

theorem aggTools_mem (sname : String) (tst : List (String × JVal)) :
    ∀ (tools : List JVal) (reg reg' : List (JVal × RegEntry)),
    aggTools sname tst tools reg = some reg' →
    ∀ p ∈ reg', p ∈ reg ∨ (p.2.server = sname ∧ toolExcluded tst p.1 = false) := by
  intro tools
  induction tools with
  | nil =>
    intro reg reg' h p hp
    simp only [aggTools, Option.some.injEq] at h
    exact Or.inl (h ▸ hp)
  | cons t ts ih =>
    intro reg reg' h p hp
    cases t with
    | jobj tfs =>
      simp only [aggTools] at h
      by_cases htr : (jget tfs "name").truthy
      · rw [if_neg (by simp [htr])] at h
        rcases hn : jget tfs "name" with _ | b | q | s | l | fs <;> rw [hn] at h
        · rw [hn] at htr; simp [JVal.truthy] at htr
        · by_cases hexcl : toolExcluded tst (JVal.jbool b)
          · rw [if_pos hexcl] at h
            exact ih reg reg' h p hp
          · rw [if_neg hexcl] at h
            rcases ih _ _ h p hp with hin | hgood
            · rcases mem_rsetJ _ _ _ _ hin with heq | hin'
              · subst heq
                exact Or.inr ⟨rfl, by simpa using hexcl⟩
              · exact Or.inl hin'
            · exact Or.inr hgood
        · by_cases hexcl : toolExcluded tst (JVal.jnum q)
          · rw [if_pos hexcl] at h
            exact ih reg reg' h p hp
          · rw [if_neg hexcl] at h
            rcases ih _ _ h p hp with hin | hgood
            · rcases mem_rsetJ _ _ _ _ hin with heq | hin'
              · subst heq
                exact Or.inr ⟨rfl, by simpa using hexcl⟩
              · exact Or.inl hin'
            · exact Or.inr hgood
        · by_cases hexcl : toolExcluded tst (JVal.jstr s)
          · rw [if_pos hexcl] at h
            exact ih reg reg' h p hp
          · rw [if_neg hexcl] at h
            rcases ih _ _ h p hp with hin | hgood
            · rcases mem_rsetJ _ _ _ _ hin with heq | hin'
              · subst heq
                exact Or.inr ⟨rfl, by simpa using hexcl⟩
              · exact Or.inl hin'
            · exact Or.inr hgood
        · exact absurd h (by simp)
        · exact absurd h (by simp)
      · rw [if_pos (by simp [htr] : (!(jget tfs "name").truthy) = true)] at h
        exact ih reg reg' h p hp
    | jnull => simp [aggTools] at h
    | jbool b => simp [aggTools] at h
    | jnum q => simp [aggTools] at h
    | jstr s => simp [aggTools] at h
    | jarr l => simp [aggTools] at h

theorem aggServers_mem (w : World) (states : JVal) :
    ∀ (names : List String) (st : HostState) (reg : List (JVal × RegEntry))
      (st' : HostState) (reg' : List (JVal × RegEntry)),
    aggServers w states names st reg = some (st', reg') →
    ∀ p ∈ reg', p ∈ reg ∨
      ∃ tst, tstateOf states p.2.server = some tst ∧ toolExcluded tst p.1 = false := by
  intro names
  induction names with
  | nil =>
    intro st reg st' reg' h p hp
    simp only [aggServers, Option.some.injEq, Prod.mk.injEq] at h
    exact Or.inl (h.2 ▸ hp)
  | cons n0 rest ih =>
    intro st reg st' reg' h p hp
    simp only [aggServers] at h
    split at h
    · exact ih st reg st' reg' h p hp
    · rcases htst : tstateOf states n0 with _ | tst <;> rw [htst] at h
      · simp at h
      · dsimp only at h
        rcases hagg : aggTools n0 tst (host_list_tools w st n0).2 reg with _ | reg1 <;>
          rw [hagg] at h
        · simp at h
        · dsimp only at h
          rcases ih _ _ _ _ h p hp with hin | hex
          · rcases aggTools_mem n0 tst _ _ _ hagg p hin with hin' | hgood
            · exact Or.inl hin'
            · exact Or.inr ⟨tst, hgood.1 ▸ htst, hgood.2⟩
          · exact Or.inr hex

theorem beq_jstr_right (x : JVal) (s : String)
    (h : JVal.beq x (JVal.jstr s) = true) : x = JVal.jstr s := by
  cases x <;> simp [JVal.beq] at h ⊢
  exact h

theorem rsetJ_self_mem (reg : List (JVal × RegEntry)) (k : JVal) (v : RegEntry) :
    (k, v) ∈ rsetJ reg k v := by
  induction reg with
  | nil => simp [rsetJ]
  | cons hd tl ih =>
    obtain ⟨a, b⟩ := hd
    simp only [rsetJ]
    split
    · exact List.mem_cons_self _ _
    · exact List.mem_cons_of_mem _ ih

theorem mem_rsetJ_str_preserved (reg : List (JVal × RegEntry)) (s : String)
    (e : RegEntry) (k : JVal) (v : RegEntry)
    (hmem : (JVal.jstr s, e) ∈ reg) : ∃ e', (JVal.jstr s, e') ∈ rsetJ reg k v := by
  induction reg with
  | nil => simp at hmem
  | cons hd tl ih =>
    obtain ⟨a, b⟩ := hd
    simp only [rsetJ]
    rcases List.mem_cons.mp hmem with heq | htl
    · rw [Prod.mk.injEq] at heq
      obtain ⟨rfl, rfl⟩ := heq
      by_cases hk : JVal.beq (JVal.jstr s) k
      · rw [if_pos hk]
        obtain rfl : k = JVal.jstr s := by
          cases k <;> simp [JVal.beq] at hk ⊢
          exact hk.symm
        exact ⟨v, List.mem_cons_self _ _⟩
      · rw [if_neg hk]
        exact ⟨e, List.mem_cons_self _ _⟩
    · by_cases hk : JVal.beq a k
      · rw [if_pos hk]
        exact ⟨e, List.mem_cons_of_mem _ htl⟩
      · rw [if_neg hk]
        obtain ⟨e', he'⟩ := ih htl
        exact ⟨e', List.mem_cons_of_mem _ he'⟩

theorem aggTools_str_preserved (sname : String) (tst : List (String × JVal)) :
    ∀ (tools : List JVal) (reg reg' : List (JVal × RegEntry))
      (s : String) (e : RegEntry),
    aggTools sname tst tools reg = some reg' →
    (JVal.jstr s, e) ∈ reg → ∃ e', (JVal.jstr s, e') ∈ reg' := by
  intro tools
  induction tools with
  | nil =>
    intro reg reg' s e h hmem
    simp only [aggTools, Option.some.injEq] at h
    exact ⟨e, h ▸ hmem⟩
  | cons t ts ih =>
    intro reg reg' s e h hmem
    cases t with
    | jobj tfs =>
      simp only [aggTools] at h
      split at h
      · exact ih reg reg' s e h hmem
      · rcases hn : jget tfs "name" with _ | b | q | s' | l | fs <;> rw [hn] at h <;>
          dsimp only at h
        · split at h
          · exact ih reg reg' s e h hmem
          · obtain ⟨e1, he1⟩ := mem_rsetJ_str_preserved reg s e _ _ hmem
            exact ih _ reg' s e1 h he1
        · split at h
          · exact ih reg reg' s e h hmem
          · obtain ⟨e1, he1⟩ := mem_rsetJ_str_preserved reg s e _ _ hmem
            exact ih _ reg' s e1 h he1
        · split at h
          · exact ih reg reg' s e h hmem
          · obtain ⟨e1, he1⟩ := mem_rsetJ_str_preserved reg s e _ _ hmem
            exact ih _ reg' s e1 h he1
        · split at h
          · exact ih reg reg' s e h hmem
          · obtain ⟨e1, he1⟩ := mem_rsetJ_str_preserved reg s e _ _ hmem
            exact ih _ reg' s e1 h he1
        · simp at h
        · simp at h
    | jnull => simp [aggTools] at h
    | jbool b => simp [aggTools] at h
    | jnum q => simp [aggTools] at h
    | jstr s1 => simp [aggTools] at h
    | jarr l => simp [aggTools] at h

theorem aggTools_includes (sname : String) (tst : List (String × JVal)) :
    ∀ (tools : List JVal) (reg reg' : List (JVal × RegEntry))
      (tfs : List (String × JVal)) (s : String),
    aggTools sname tst tools reg = some reg' →
    JVal.jobj tfs ∈ tools →
    jget tfs "name" = JVal.jstr s → s ≠ "" →
    toolExcluded tst (JVal.jstr s) = false →
    ∃ e, (JVal.jstr s, e) ∈ reg' := by
  intro tools
  induction tools with
  | nil =>
    intro reg reg' tfs s h hmem
    simp at hmem
  | cons t ts ih =>
    intro reg reg' tfs s h hmem hname hs hexcl
    rcases List.mem_cons.mp hmem with heq | hts
    · subst heq
      simp only [aggTools, hname] at h
      rw [if_neg (by simp [JVal.truthy, hs])] at h
      rw [if_neg (by simp [hexcl])] at h
      exact aggTools_str_preserved sname tst ts _ reg' s _ h
        (rsetJ_self_mem reg (JVal.jstr s) ⟨sname, JVal.jobj tfs⟩)
    · cases t with
      | jobj tfs0 =>
        simp only [aggTools] at h
        split at h
        · exact ih reg reg' tfs s h hts hname hs hexcl
        · rcases hn : jget tfs0 "name" with _ | b | q | s' | l | fs <;> rw [hn] at h <;>
            dsimp only at h
          · split at h
            · exact ih reg reg' tfs s h hts hname hs hexcl
            · exact ih _ reg' tfs s h hts hname hs hexcl
          · split at h
            · exact ih reg reg' tfs s h hts hname hs hexcl
            · exact ih _ reg' tfs s h hts hname hs hexcl
          · split at h
            · exact ih reg reg' tfs s h hts hname hs hexcl
            · exact ih _ reg' tfs s h hts hname hs hexcl
          · split at h
            · exact ih reg reg' tfs s h hts hname hs hexcl
            · exact ih _ reg' tfs s h hts hname hs hexcl
          · simp at h
          · simp at h
      | jnull => simp [aggTools] at h
      | jbool b => simp [aggTools] at h
      | jnum q => simp [aggTools] at h
      | jstr s1 => simp [aggTools] at h
      | jarr l => simp [aggTools] at h

theorem aggServers_str_preserved (w : World) (states : JVal) :
    ∀ (names : List String) (st : HostState) (reg : List (JVal × RegEntry))
      (st' : HostState) (reg' : List (JVal × RegEntry)) (s : String) (e : RegEntry),
    aggServers w states names st reg = some (st', reg') →
    (JVal.jstr s, e) ∈ reg → ∃ e', (JVal.jstr s, e') ∈ reg' := by
  intro names
  induction names with
  | nil =>
    intro st reg st' reg' s e h hmem
    simp only [aggServers, Option.some.injEq, Prod.mk.injEq] at h
    exact ⟨e, h.2 ▸ hmem⟩
  | cons n0 rest ih =>
    intro st reg st' reg' s e h hmem
    simp only [aggServers] at h
    split at h
    · exact ih st reg st' reg' s e h hmem
    · rcases htst : tstateOf states n0 with _ | tst <;> rw [htst] at h
      · simp at h
      · dsimp only at h
        rcases hagg : aggTools n0 tst (host_list_tools w st n0).2 reg with _ | reg1 <;>
          rw [hagg] at h
        · simp at h
        · dsimp only at h
          obtain ⟨e1, he1⟩ := aggTools_str_preserved n0 tst _ reg reg1 s e hagg hmem
          exact ih _ reg1 st' reg' s e1 h he1

theorem enable_server_preserves (w : World) (st : HostState) (name name' : String)
    (hne : name' ≠ name) :
    alookup (enable_server w st name).1.servers name' = alookup st.servers name' ∧
    alookup (enable_server w st name).1.clients name' = alookup st.clients name' := by
  unfold enable_server
  rcases alookup st.servers name with _ | meta
  · exact ⟨rfl, rfl⟩
  · dsimp only
    rcases alookup st.clients name with _ | c
    · dsimp only
      by_cases hctor : w.ctorOK name
      · rw [if_pos hctor]
        constructor
        · rw [alookup_aset, if_neg (fun h => hne h.symm)]
        · rw [alookup_aset, if_neg (fun h => hne h.symm)]
      · rw [if_neg hctor]
        constructor
        · rw [alookup_aset, if_neg (fun h => hne h.symm)]
        · rfl
    · dsimp only
      constructor
      · rw [alookup_aset, if_neg (fun h => hne h.symm)]
      · rfl

theorem host_list_tools_preserves (w : World) (st : HostState) (name name' : String)
    (hne : name' ≠ name) :
    alookup (host_list_tools w st name).1.servers name' = alookup st.servers name' ∧
    alookup (host_list_tools w st name).1.clients name' = alookup st.clients name' := by
  unfold host_list_tools
  rcases alookup st.servers name with _ | meta
  · exact ⟨rfl, rfl⟩
  · dsimp only
    by_cases hen : meta.enabled.truthy
    · rw [if_neg (by simp [hen])]
      rcases alookup st.clients name with _ | c
      · dsimp only
        by_cases hok : (enable_server w st name).2
        · rw [if_pos hok]
          exact enable_server_preserves w st name name' hne
        · rw [if_neg hok]
          exact enable_server_preserves w st name name' hne
      · exact ⟨rfl, rfl⟩
    · rw [if_pos (by simp [hen])]
      exact ⟨rfl, rfl⟩

theorem host_list_tools_tools (w : World) (st : HostState) (name : String)
    (meta : SMeta) (hmeta : alookup st.servers name = some meta)
    (hen : meta.enabled.truthy = true)
    (havail : ((alookup st.clients name).isSome || w.ctorOK name) = true) :
    (host_list_tools w st name).2 = (w.catalog name).getD [] := by
  unfold host_list_tools
  rw [hmeta]
  dsimp only
  rw [if_neg (by simp [hen])]
  rcases hc : alookup st.clients name with _ | c
  · dsimp only
    rw [hc] at havail
    simp only [Option.isSome_none, Bool.false_or] at havail
    have e1 : (enable_server w st name).2 = true := by
      unfold enable_server
      rw [hmeta]
      dsimp only
      rw [hc]
      dsimp only
      rw [if_pos havail]
    rw [if_pos e1]
  · rfl

theorem list_servers_names_nodup (st : HostState) (hnd : keysNodup st.servers) :
    ((list_servers st).map fun i => i.name).Nodup := by
  have hsub : ((list_servers st).map fun i => i.name).Sublist
      (st.servers.map Prod.fst) := by
    unfold list_servers
    induction st.servers with
    | nil => simp
    | cons hd tl ih =>
      obtain ⟨k, m⟩ := hd
      by_cases htr : m.enabled.truthy
      · simpa [htr] using List.Sublist.cons₂ k ih
      · simpa [htr] using List.Sublist.cons k ih
  exact hnd.sublist hsub

theorem mem_list_servers_names (st : HostState) (name : String) (meta : SMeta)
    (hmeta : alookup st.servers name = some meta)
    (hen : meta.enabled.truthy = true) :
    name ∈ (list_servers st).map fun i => i.name := by
  have hmem := mem_of_alookup st.servers name meta hmeta
  refine List.mem_map.mpr ⟨⟨name, true, if meta.status = "" then "unknown" else meta.status⟩, ?_, rfl⟩
  unfold list_servers
  exact List.mem_filterMap.mpr ⟨(name, meta), hmem, by rw [if_pos hen]⟩

theorem aggServers_includes (w : World) (states : JVal) :
    ∀ (names : List String) (st : HostState) (reg : List (JVal × RegEntry))
      (st' : HostState) (reg' : List (JVal × RegEntry)),
    aggServers w states names st reg = some (st', reg') →
    names.Nodup →
    ∀ name ∈ names, name ≠ "" →
    ∀ meta, alookup st.servers name = some meta → meta.enabled.truthy = true →
    ((alookup st.clients name).isSome || w.ctorOK name) = true →
    ∀ tfs s, JVal.jobj tfs ∈ (w.catalog name).getD [] →
      jget tfs "name" = JVal.jstr s → s ≠ "" →
    ∀ tst, tstateOf states name = some tst →
      toolExcluded tst (JVal.jstr s) = false →
    ∃ e, (JVal.jstr s, e) ∈ reg' := by
  intro names
  induction names with
  | nil =>
    intro st reg st' reg' h hnodup name hname
    simp at hname
  | cons n0 rest ih =>
    intro st reg st' reg' h hnodup name hname hne meta hmeta hen havail tfs s htool
      hnm hs tst htst hexcl
    simp only [aggServers] at h
    rcases List.mem_cons.mp hname with rfl | hrest
    · -- the server under scrutiny is processed now
      rw [if_neg hne] at h
      rw [htst] at h
      dsimp only at h
      rcases hagg : aggTools name tst (host_list_tools w st name).2 reg
          with _ | reg1 <;> rw [hagg] at h
      · simp at h
      · dsimp only at h
        have htools := host_list_tools_tools w st name meta hmeta hen havail
        rw [htools] at hagg
        obtain ⟨e, he⟩ := aggTools_includes name tst _ reg reg1 tfs s hagg htool hnm hs hexcl
        exact aggServers_str_preserved w states rest _ reg1 st' reg' s e h he
    · -- a different server is processed first; hypotheses survive it
      have hne0 : name ≠ n0 := by
        intro hcontra
        subst hcontra
        exact (List.nodup_cons.mp hnodup).1 hrest
      split at h
      · exact ih st reg st' reg' h (List.nodup_cons.mp hnodup).2 name hrest hne meta
          hmeta hen havail tfs s htool hnm hs tst htst hexcl
      · rcases htst0 : tstateOf states n0 with _ | tst0 <;> rw [htst0] at h
        · simp at h
        · dsimp only at h
          rcases hagg : aggTools n0 tst0 (host_list_tools w st n0).2 reg
              with _ | reg1 <;> rw [hagg] at h
          · simp at h
          · dsimp only at h
            obtain ⟨hps, hpc⟩ := host_list_tools_preserves w st n0 name hne0
            exact ih _ reg1 st' reg' h (List.nodup_cons.mp hnodup).2 name hrest hne
              meta (hps ▸ hmeta) hen (hpc ▸ havail) tfs s htool hnm hs tst htst hexcl

/-- C2 (amended): in a successful aggregation, a tool is absent from the
registry exactly when its owning server's override tool-map names it with
an entry lacking a truthy `turn-on` (mere presence without `turn-on: true`
excludes, not only an explicit `turn-on = false`); every fetched tool with
a truthy string name and no such entry ends up registered, and every
registered entry passed that filter. -/
theorem list_all_tools_override_filter (w : World) (st : HostState)
    (st' : HostState) (reg' : List (JVal × RegEntry))
    (hrun : list_all_tools w st = some (st', reg'))
    (hnd : keysNodup st.servers) :
    (∀ p ∈ reg', ∃ tst, tstateOf (load_states w) p.2.server = some tst ∧
        toolExcluded tst p.1 = false) ∧
    (∀ name meta, alookup st.servers name = some meta →
      meta.enabled.truthy = true → name ≠ "" →
      ((alookup st.clients name).isSome || w.ctorOK name) = true →
      ∀ tfs s, JVal.jobj tfs ∈ (w.catalog name).getD [] →
        jget tfs "name" = JVal.jstr s → s ≠ "" →
      ∀ tst, tstateOf (load_states w) name = some tst →
        toolExcluded tst (JVal.jstr s) = false →
      ∃ e, (JVal.jstr s, e) ∈ reg') := by
  constructor
  · intro p hp
    rcases aggServers_mem w (load_states w) _ st [] st' reg' hrun p hp with hin | hex
    · simp at hin
    · exact hex
  · intro name meta hmeta hen hne havail tfs s htool hnm hs tst htst hexcl
    exact aggServers_includes w (load_states w) _ st [] st' reg' hrun
      (list_servers_names_nodup st hnd)
      name (mem_list_servers_names st name meta hmeta hen) hne meta hmeta hen havail
      tfs s htool hnm hs tst htst hexcl

/-- Witness for `list_all_tools_override_filter`: one enabled server
`"s"` with live client exposing tools `"t"` (override entry `turn-on =
false`) and `"u"` (no override entry): `"u"` is registered and the
registered entry passed the filter. -/
theorem list_all_tools_override_filter_witness :
    (∃ tst, tstateOf (load_states
        ⟨fun _ => false,
         fun _ => some [JVal.jobj [("name", JVal.jstr "t")],
                        JVal.jobj [("name", JVal.jstr "u")]],
         some (JVal.jobj [("s", JVal.jobj [("tools", JVal.jobj
           [("t", JVal.jobj [("turn-on", JVal.jbool false)])])])])⟩) "s" = some tst ∧
       toolExcluded tst (JVal.jstr "u") = false) ∧
    (∃ e, (JVal.jstr "u", e) ∈
      [(JVal.jstr "u", (⟨"s", JVal.jobj [("name", JVal.jstr "u")]⟩ : RegEntry))]) := by
  have h := list_all_tools_override_filter
    ⟨fun _ => false,
     fun _ => some [JVal.jobj [("name", JVal.jstr "t")],
                    JVal.jobj [("name", JVal.jstr "u")]],
     some (JVal.jobj [("s", JVal.jobj [("tools", JVal.jobj
       [("t", JVal.jobj [("turn-on", JVal.jbool false)])])])])⟩
    { servers := [("s", sampleMeta "s" (JVal.jbool true) "unknown")],
      clients := [("s", 0)], nextClient := 1 }
    { servers := [("s", sampleMeta "s" (JVal.jbool true) "unknown")],
      clients := [("s", 0)], nextClient := 1 }
    [(JVal.jstr "u", (⟨"s", JVal.jobj [("name", JVal.jstr "u")]⟩ : RegEntry))]
    rfl (by simp [keysNodup])
  constructor
  · exact h.1 (JVal.jstr "u", ⟨"s", JVal.jobj [("name", JVal.jstr "u")]⟩)
      (by simp)
  · exact h.2 "s" (sampleMeta "s" (JVal.jbool true) "unknown") rfl rfl
      (by decide) rfl [("name", JVal.jstr "u")] "u" (by simp) rfl (by decide)
      [("t", JVal.jobj [("turn-on", JVal.jbool false)])] rfl rfl

/-- The registry entry produced by the *last* tool in a catalog whose
truthy name equals `s` and which survives the override filter — the value
`reg[n] = ...` overwriting leaves behind. -/
def lastPass (sname : String) (tst : List (String × JVal)) (s : String) :
    List JVal → Option RegEntry
  | [] => none
  | t :: ts =>
    match lastPass sname tst s ts with
    | some e => some e
    | none =>
      match t with
      | .jobj tfs =>
        if (jget tfs "name").truthy && JVal.beq (jget tfs "name") (JVal.jstr s)
            && !toolExcluded tst (jget tfs "name") then
          some ⟨sname, .jobj tfs⟩
        else none
      | _ => none

theorem beq_jstr_refl (s : String) :
    JVal.beq (JVal.jstr s) (JVal.jstr s) = true := by
  simp [JVal.beq]

theorem rlookupJ_rsetJ_self_str (reg : List (JVal × RegEntry)) (v : RegEntry)
    (s : String) :
    rlookupJ (rsetJ reg (JVal.jstr s) v) (JVal.jstr s) = some v := by
  induction reg with
  | nil => simp [rsetJ, rlookupJ, beq_jstr_refl]
  | cons hd tl ih =>
    obtain ⟨a, b⟩ := hd
    simp only [rsetJ]
    split
    · simp [rlookupJ, beq_jstr_refl]
    · rename_i hne
      simp only [rlookupJ]
      rw [if_neg (by simp [hne]), ih]

theorem beq_jstr_of_beq (k n : JVal) (s : String)
    (h1 : JVal.beq k n = true) (h2 : JVal.beq n (JVal.jstr s) = false) :
    JVal.beq k (JVal.jstr s) = false := by
  cases k with
  | jstr t =>
    cases n <;> simp [JVal.beq] at h1 h2 ⊢
    · subst h1
      exact h2
  | jnull => simp [JVal.beq]
  | jbool b => simp [JVal.beq]
  | jnum q => simp [JVal.beq]
  | jarr l => simp [JVal.beq]
  | jobj fs => simp [JVal.beq]

theorem rlookupJ_rsetJ_nomatch (reg : List (JVal × RegEntry)) (n : JVal)
    (v : RegEntry) (s : String) (h : JVal.beq n (JVal.jstr s) = false) :
    rlookupJ (rsetJ reg n v) (JVal.jstr s) = rlookupJ reg (JVal.jstr s) := by
  induction reg with
  | nil => simp [rsetJ, rlookupJ, h]
  | cons hd tl ih =>
    obtain ⟨a, b⟩ := hd
    simp only [rsetJ]
    split
    · rename_i hk
      have hka : JVal.beq a (JVal.jstr s) = false := beq_jstr_of_beq a n s hk h
      simp only [rlookupJ]
      rw [if_neg (by simp [h]), if_neg (by simp [hka])]
    · simp only [rlookupJ]
      split
      · rfl
      · exact ih

theorem aggTools_rlookup (sname : String) (tst : List (String × JVal)) (s : String) :
    ∀ (tools : List JVal) (reg reg' : List (JVal × RegEntry)),
    aggTools sname tst tools reg = some reg' →
    rlookupJ reg' (JVal.jstr s) =
      (match lastPass sname tst s tools with
       | some e => some e
       | none => rlookupJ reg (JVal.jstr s)) := by
  intro tools
  induction tools with
  | nil =>
    intro reg reg' h
    simp only [aggTools, Option.some.injEq] at h
    simp [lastPass, h]
  | cons t ts ih =>
    intro reg reg' h
    cases t with
    | jobj tfs =>
      simp only [aggTools] at h
      simp only [lastPass]
      split at h
      · -- falsy name: no insertion, head does not pass
        rename_i hfalsy
        simp only [Bool.not_eq_true'] at hfalsy
        rw [ih reg reg' h]
        rcases lastPass sname tst s ts with _ | e
        · simp [hfalsy]
        · rfl
      · rename_i htruthy
        simp only [Bool.not_eq_true', Bool.not_eq_false] at htruthy
        rcases hn : jget tfs "name" with _ | b | q | s' | l | fs <;> rw [hn] at h <;>
            dsimp only at h
        · rw [hn] at htruthy
          simp [JVal.truthy] at htruthy
        · split at h
          · rename_i hexcl
            rw [ih reg reg' h]
            rcases lastPass sname tst s ts with _ | e
            · simp [hn, hexcl]
            · rfl
          · rename_i hexcl
            simp only [Bool.not_eq_true] at hexcl
            rw [ih _ reg' h]
            rcases lastPass sname tst s ts with _ | e
            · rcases hbeq : JVal.beq (JVal.jbool b) (JVal.jstr s) with _ | _
              · rw [rlookupJ_rsetJ_nomatch reg _ _ s hbeq]
                simp [hn, hbeq]
              · exact absurd hbeq (by simp [JVal.beq])
            · rfl
        · split at h
          · rename_i hexcl
            rw [ih reg reg' h]
            rcases lastPass sname tst s ts with _ | e
            · simp [hn, hexcl]
            · rfl
          · rename_i hexcl
            simp only [Bool.not_eq_true] at hexcl
            rw [ih _ reg' h]
            rcases lastPass sname tst s ts with _ | e
            · rcases hbeq : JVal.beq (JVal.jnum q) (JVal.jstr s) with _ | _
              · rw [rlookupJ_rsetJ_nomatch reg _ _ s hbeq]
                simp [hn, hbeq]
              · exact absurd hbeq (by simp [JVal.beq])
            · rfl
        · split at h
          · rename_i hexcl
            rw [ih reg reg' h]
            rcases lastPass sname tst s ts with _ | e
            · simp [hn, hexcl]
            · rfl
          · rename_i hexcl
            simp only [Bool.not_eq_true] at hexcl
            rw [ih _ reg' h]
            rcases lastPass sname tst s ts with _ | e
            · rcases hbeq : JVal.beq (JVal.jstr s') (JVal.jstr s) with _ | _
              · rw [rlookupJ_rsetJ_nomatch reg _ _ s hbeq]
                simp [hn, hbeq]
              · have hss : s' = s := by
                  simpa [JVal.beq] using hbeq
                subst hss
                rw [rlookupJ_rsetJ_self_str]
                rw [hn] at htruthy
                simp [hn, hbeq, htruthy, hexcl]
            · rfl
        · simp at h
        · simp at h
    | jnull => simp [aggTools] at h
    | jbool b => simp [aggTools] at h
    | jnum q => simp [aggTools] at h
    | jstr s1 => simp [aggTools] at h
    | jarr l => simp [aggTools] at h

theorem lastPass_server (sname : String) (tst : List (String × JVal)) (s : String) :
    ∀ (tools : List JVal) (e : RegEntry),
    lastPass sname tst s tools = some e → e.server = sname := by
  intro tools
  induction tools with
  | nil =>
    intro e h
    simp [lastPass] at h
  | cons t ts ih =>
    intro e h
    simp only [lastPass] at h
    rcases hlp : lastPass sname tst s ts with _ | e0 <;> rw [hlp] at h
    · cases t with
      | jobj tfs =>
        dsimp only at h
        split at h
        · simp only [Option.some.injEq] at h
          rw [← h]
        · simp at h
      | jnull => simp at h
      | jbool b => simp at h
      | jnum q => simp at h
      | jstr s1 => simp at h
      | jarr l => simp at h
    · dsimp only at h
      simp only [Option.some.injEq] at h
      exact h ▸ ih e0 hlp

theorem lastPass_isSome (sname : String) (tst : List (String × JVal)) (s : String) :
    ∀ (tools : List JVal) (tfs : List (String × JVal)),
    JVal.jobj tfs ∈ tools → jget tfs "name" = JVal.jstr s → s ≠ "" →
    toolExcluded tst (JVal.jstr s) = false →
    (lastPass sname tst s tools).isSome = true := by
  intro tools
  induction tools with
  | nil =>
    intro tfs hmem
    simp at hmem
  | cons t ts ih =>
    intro tfs hmem hname hs hexcl
    simp only [lastPass]
    rcases hlp : lastPass sname tst s ts with _ | e0
    · rcases List.mem_cons.mp hmem with heq | hts
      · subst heq
        dsimp only
        rw [if_pos]
        · rfl
        · rw [hname]
          simp [JVal.truthy, hs, beq_jstr_refl, hexcl]
      · have := ih tfs hts hname hs hexcl
        rw [hlp] at this
        simp at this
    · rfl

/-- C6: when two distinct enabled servers both expose a tool named `s`
(each reachable, and `s` not overridden off for the later one), the
registry entry for `s` after a successful aggregation names the
later-processed server (registry iteration order) as the owner — the
later server silently wins, with no error or collision report (the
aggregation returns normally). -/
theorem list_all_tools_collision_later_wins (w : World) (st : HostState)
    (st' : HostState) (reg' : List (JVal × RegEntry))
    (na nb : String) (ma mb : SMeta) (s : String)
    (tfsA tfsB : List (String × JVal)) (tstB : List (String × JVal))
    (hservers : st.servers = [(na, ma), (nb, mb)])
    (hna : na ≠ "") (hnb : nb ≠ "") (hab : na ≠ nb)
    (hena : ma.enabled.truthy = true) (henb : mb.enabled.truthy = true)
    (hA : JVal.jobj tfsA ∈ (w.catalog na).getD [])
    (hAn : jget tfsA "name" = JVal.jstr s)
    (hB : JVal.jobj tfsB ∈ (w.catalog nb).getD [])
    (hBn : jget tfsB "name" = JVal.jstr s)
    (hs : s ≠ "")
    (havailB : ((alookup st.clients nb).isSome || w.ctorOK nb) = true)
    (htstB : tstateOf (load_states w) nb = some tstB)
    (hexclB : toolExcluded tstB (JVal.jstr s) = false)
    (hrun : list_all_tools w st = some (st', reg')) :
    ∃ sch, rlookupJ reg' (JVal.jstr s) = some ⟨nb, sch⟩ := by
  have hnames : ((list_servers st).map fun i => i.name) = [na, nb] := by
    simp [list_servers, hservers, hena, henb]
  unfold list_all_tools at hrun
  rw [hnames] at hrun
  -- step for server `na`
  simp only [aggServers] at hrun
  rw [if_neg hna] at hrun
  rcases htstA : tstateOf (load_states w) na with _ | tstA <;> rw [htstA] at hrun
  · simp at hrun
  · dsimp only at hrun
    rcases haggA : aggTools na tstA (host_list_tools w st na).2 [] with _ | reg1 <;>
      rw [haggA] at hrun
    · simp at hrun
    · dsimp only at hrun
      -- step for server `nb`, on the state the first step left behind
      obtain ⟨hps, hpc⟩ := host_list_tools_preserves w st na nb (Ne.symm hab)
      have hmb1 : alookup (host_list_tools w st na).1.servers nb = some mb := by
        rw [hps, hservers]
        simp [alookup, hab]
      have havailB1 : ((alookup (host_list_tools w st na).1.clients nb).isSome ||
          w.ctorOK nb) = true := by
        rw [hpc]
        exact havailB
      have htoolsB := host_list_tools_tools w (host_list_tools w st na).1 nb mb
        hmb1 henb havailB1
      rw [if_neg hnb, htstB] at hrun
      dsimp only at hrun
      rcases haggB : aggTools nb tstB
          (host_list_tools w (host_list_tools w st na).1 nb).2 reg1 with _ | reg2 <;>
        rw [haggB] at hrun
      · simp at hrun
      · dsimp only at hrun
        simp only [aggServers, Option.some.injEq, Prod.mk.injEq] at hrun
        obtain ⟨-, rfl⟩ := hrun
        have hlook := aggTools_rlookup nb tstB s _ reg1 reg2 haggB
        rw [htoolsB] at haggB
        have hsome := lastPass_isSome nb tstB s ((w.catalog nb).getD []) tfsB hB
          hBn hs hexclB
        rcases hlp : lastPass nb tstB s ((w.catalog nb).getD []) with _ | e
        · rw [hlp] at hsome
          simp at hsome
        · have hserver := lastPass_server nb tstB s _ e hlp
          rw [htoolsB, hlp] at hlook
          refine ⟨e.schema, ?_⟩
          rw [hlook, ← hserver]

/-- Witness for `list_all_tools_collision_later_wins`: servers `"a"` then
`"b"`, both exposing a tool named `"t"`; `"b"` owns the registry entry. -/
theorem list_all_tools_collision_later_wins_witness :
    ∃ sch, rlookupJ
      [(JVal.jstr "t", (⟨"b", JVal.jobj [("name", JVal.jstr "t")]⟩ : RegEntry))]
      (JVal.jstr "t") = some ⟨"b", sch⟩ := by
  have h := list_all_tools_collision_later_wins
    ⟨fun _ => true, fun _ => some [JVal.jobj [("name", JVal.jstr "t")]], none⟩
    { servers := [("a", sampleMeta "a" (JVal.jbool true) "unknown"),
                  ("b", sampleMeta "b" (JVal.jbool true) "unknown")],
      clients := [("a", 0), ("b", 1)], nextClient := 2 }
    { servers := [("a", sampleMeta "a" (JVal.jbool true) "unknown"),
                  ("b", sampleMeta "b" (JVal.jbool true) "unknown")],
      clients := [("a", 0), ("b", 1)], nextClient := 2 }
    [(JVal.jstr "t", (⟨"b", JVal.jobj [("name", JVal.jstr "t")]⟩ : RegEntry))]
    "a" "b" (sampleMeta "a" (JVal.jbool true) "unknown")
    (sampleMeta "b" (JVal.jbool true) "unknown") "t"
    [("name", JVal.jstr "t")] [("name", JVal.jstr "t")] []
    rfl (by decide) (by decide) (by decide) rfl rfl
    (by simp) rfl (by simp) rfl (by decide) rfl rfl rfl rfl
  exact h

/-! ## `MCPHost.load_config` / `reload_config` (mcp_host.py:36-65, 384-409)

`reload_config` re-reads the configuration (replacing `_servers`
wholesale), then walks a snapshot of `_clients`: a client whose server is
now absent or disabled is deleted (inside `try`) — but the subsequent
`self._servers[name]["status"] = "disabled"` is *outside* the `try`, so a
server that vanished from the new configuration raises `KeyError` there.
Finally every enabled server without a client gets one (`running`, or
`down` on `MCPClientError`). -/

/-- An exception escaping the modelled host operations. -/
inductive PyErr where
  | keyError (k : String)
  | attrError
deriving DecidableEq, Repr

/-- One server record from a config entry (mcp_host.py:56-64); note
`entry.get("enabled", True)` defaults only an *absent* key. -/
def mkSMeta (name : String) (entry : List (String × JVal)) : SMeta :=
  { name := name, url := jget entry "url",
    headers := pyOr (jget entry "headers") (JVal.jobj []),
    enabled := (alookup entry "enabled").getD (JVal.jbool true),
    typ := jget entry "type", note := jget entry "note", status := "unknown" }

/-- The per-entry loop of `load_config`: every entry must be a dict, or
`entry.get` raises (`none`). -/
def mkServers : List (String × JVal) → Option (List (String × SMeta))
  | [] => some []
  | (name, JVal.jobj efs) :: rest =>
    (mkServers rest).map fun r => (name, mkSMeta name efs) :: r
  | _ => none

/-- `MCPHost.load_config` (mcp_host.py:36-65): `doc = none` stands for a
missing file or a JSON parse error (both degrade to the empty config);
a decoded non-dict document or non-dict `mcpServers` raises (`none`). -/
def load_config (doc : Option JVal) : Option (List (String × SMeta)) :=
  match doc with
  | none => some []
  | some (JVal.jobj dfs) =>
    match pyOr (jget dfs "mcpServers") (JVal.jobj []) with
    | .jobj mfs => mkServers mfs
    | _ => none
  | some _ => none

/-- Phase 1 of `reload_config` (mcp_host.py:392-398): over a snapshot of
the old client table, drop clients of servers now absent or disabled; the
status write for an absent server raises `KeyError`. -/
def reload_phase1 : List (String × Nat) → HostState → Except PyErr HostState
  | [], st => .ok st
  | (name, _) :: rest, st =>
    match alookup st.servers name with
    | none =>
      -- client removed inside `try`, then the status write raises
      .error (.keyError name)
    | some meta =>
      if !meta.enabled.truthy then
        let meta' := { meta with status := "disabled" }
        reload_phase1 rest { st with clients := aremove st.clients name,
                                     servers := aset st.servers name meta' }
      else
        reload_phase1 rest st

/-- Phase 2 of `reload_config` (mcp_host.py:399-409): lazily create
clients for enabled servers lacking one. -/
def reload_phase2 (w : World) : List String → HostState → HostState
  | [], st => st
  | name :: rest, st =>
    match alookup st.servers name with
    | none => reload_phase2 w rest st
    | some meta =>
      if meta.enabled.truthy && (alookup st.clients name).isNone then
        if w.ctorOK name then
          reload_phase2 w rest
            { servers := aset st.servers name { meta with status := "running" },
              clients := aset st.clients name st.nextClient,
              nextClient := st.nextClient + 1 }
        else
          reload_phase2 w rest
            { st with servers := aset st.servers name { meta with status := "down" } }
      else reload_phase2 w rest st

/-- `MCPHost.reload_config` (mcp_host.py:384-409). -/
def reload_config (w : World) (st : HostState) (doc : Option JVal) :
    Except PyErr HostState :=
  match load_config doc with
  | none => .error .attrError
  | some servers1 =>
    let st0 : HostState := { st with servers := servers1 }
    match reload_phase1 st.clients st0 with
    | .error e => .error e
    | .ok st1 => .ok (reload_phase2 w (st1.servers.map Prod.fst) st1)

/-- C5 (code bug): a host holding a live client for server `"a"`, reloaded
with a configuration in which `"a"` no longer appears, raises
`KeyError('a')` from `self._servers[name]["status"] = "disabled"`
(mcp_host.py:398) instead of completing the reload — contradicting both
the claim and the method's own docstring («移除已禁用或缺失的客户端，将其
状态设为 disabled»). -/
theorem reload_config_vanished_server_keyerror :
    reload_config ⟨fun _ => true, fun _ => some [], none⟩
      { servers := [("a", sampleMeta "a" (JVal.jbool true) "running")],
        clients := [("a", 0)], nextClient := 1 }
      (some (JVal.jobj [("mcpServers", JVal.jobj [])])) =
    Except.error (PyErr.keyError "a") := by
  rfl

end MCPHost
